import Mathlib

/-!
Shallow embedding of the invisible-cloak pipeline: `invisible_cloak.py`
(red-mask segmentation and mask-based compositing) and `background.py`
(median background acquisition).  Pixels are triples of 8-bit channels
modelled as natural numbers; frames are total functions on integer
coordinates together with explicit dimensions; the OpenCV primitives used
by the scripts (`cv2.inRange`, the bitwise operations, `cv2.erode` and
`cv2.dilate` with a 3x3 all-ones kernel, saturating `cv2.add`,
`np.median` followed by `astype(np.uint8)`) are modelled channel-wise.
-/

/-- One pixel: three 8-bit channels (BGR for camera frames, and
hue/saturation/value after `cv2.cvtColor`). -/
structure Pix where
  c0 : Nat
  c1 : Nat
  c2 : Nat
deriving DecidableEq

/-- Image dimensions: height and width. -/
structure Dims where
  h : Nat
  w : Nat
deriving DecidableEq

/-- A 3-channel image, as a total function on integer coordinates (row,
column); only coordinates inside the dimensions are meaningful. -/
abbrev Img := Int → Int → Pix

/-- A single-channel (grayscale / mask) image. -/
abbrev Gray := Int → Int → Nat

/-- The coordinate (y, x) lies inside an image of dimensions d. -/
def inBounds (d : Dims) (y x : Int) : Prop :=
  0 ≤ y ∧ y < (d.h : Int) ∧ 0 ≤ x ∧ x < (d.w : Int)

instance (d : Dims) (y x : Int) : Decidable (inBounds d y x) := by
  unfold inBounds; infer_instance

/-- All channels of a pixel are valid 8-bit values. -/
def pix8 (p : Pix) : Prop := p.c0 ≤ 255 ∧ p.c1 ≤ 255 ∧ p.c2 ≤ 255

/-- All pixels of an image are valid 8-bit values. -/
def img8 (f : Img) : Prop := ∀ y x : Int, pix8 (f y x)

/-! ## Segmentation: `build_red_mask` of invisible_cloak.py -/

/-- The condition tested by `cv2.inRange`: every channel lies within the
inclusive lower and upper bounds. -/
def matchesRange (lo hi p : Pix) : Prop :=
  lo.c0 ≤ p.c0 ∧ p.c0 ≤ hi.c0 ∧ lo.c1 ≤ p.c1 ∧ p.c1 ≤ hi.c1 ∧
    lo.c2 ≤ p.c2 ∧ p.c2 ≤ hi.c2

instance (lo hi p : Pix) : Decidable (matchesRange lo hi p) := by
  unfold matchesRange; infer_instance

/-- Per-pixel value of `cv2.inRange(hsv, lo, hi)`: 255 when every channel is
within the inclusive bounds, otherwise 0. -/
def inRangePix (lo hi p : Pix) : Nat :=
  if matchesRange lo hi p then 255 else 0

/-- `cv2.inRange` over a whole image. -/
def inRange (lo hi : Pix) (img : Img) : Gray := fun y x => inRangePix lo hi (img y x)

/-- Lower bound of the first pure-red range (lines 36-37). -/
def lower_red1 : Pix := ⟨0, 120, 70⟩

/-- Upper bound of the first pure-red range. -/
def upper_red1 : Pix := ⟨10, 255, 255⟩

/-- Lower bound of the second pure-red range (lines 39-40). -/
def lower_red2 : Pix := ⟨170, 120, 70⟩

/-- Upper bound of the second pure-red range. -/
def upper_red2 : Pix := ⟨180, 255, 255⟩

/-- Lower bound of the reddish-orange range (lines 43-44). -/
def lower_orange : Pix := ⟨10, 100, 70⟩

/-- Upper bound of the reddish-orange range. -/
def upper_orange : Pix := ⟨25, 255, 255⟩

/-- The pixel matches at least one of the three configured ranges. -/
def matchesAny (p : Pix) : Prop :=
  matchesRange lower_red1 upper_red1 p ∨ matchesRange lower_red2 upper_red2 p ∨
    matchesRange lower_orange upper_orange p

instance (p : Pix) : Decidable (matchesAny p) := by
  unfold matchesAny; infer_instance

/-- Line 51 of invisible_cloak.py, `mask = mask1 | mask2 | mask3`: the
per-pixel bitwise OR of the three `cv2.inRange` masks. -/
def rawRedMask (hsv : Img) : Gray := fun y x =>
  Nat.lor (Nat.lor (inRange lower_red1 upper_red1 hsv y x)
      (inRange lower_red2 upper_red2 hsv y x))
    (inRange lower_orange upper_orange hsv y x)

/-- Offsets covered by the 3x3 all-ones structuring element
`np.ones((3, 3), np.uint8)`. -/
def offsets : List (Int × Int) :=
  [(-1, -1), (-1, 0), (-1, 1), (0, -1), (0, 0), (0, 1), (1, -1), (1, 0), (1, 1)]

/-- `cv2.erode` with the 3x3 kernel: per-pixel minimum over the
neighbourhood.  Samples falling outside the image take the default OpenCV
morphology border value, which acts as the maximal value 255 for erosion. -/
def erode (d : Dims) (m : Gray) : Gray := fun y x =>
  (offsets.map fun o =>
      if inBounds d (y + o.1) (x + o.2) then m (y + o.1) (x + o.2) else 255).foldr min 255

/-- `cv2.dilate` with the 3x3 kernel: per-pixel maximum over the
neighbourhood; out-of-image samples act as the minimal value 0. -/
def dilate (d : Dims) (m : Gray) : Gray := fun y x =>
  (offsets.map fun o =>
      if inBounds d (y + o.1) (x + o.2) then m (y + o.1) (x + o.2) else 0).foldr max 0

/-- Lines 54-56 of invisible_cloak.py:
`cv2.morphologyEx(mask, cv2.MORPH_OPEN, kernel, iterations=2)` — which
erodes twice and then dilates twice — followed by
`cv2.dilate(mask, kernel, iterations=1)`. -/
def cleanMask (d : Dims) (m : Gray) : Gray :=
  dilate d (dilate d (dilate d (erode d (erode d m))))

/-- `build_red_mask(hsv)` of invisible_cloak.py: the three-range raw red
mask followed by the morphological cleaning passes. -/
def build_red_mask (d : Dims) (hsv : Img) : Gray := cleanMask d (rawRedMask hsv)

/-! ## Compositing: lines 104-110 of invisible_cloak.py -/

/-- `cv2.bitwise_not` on one uint8 mask value: the 8-bit complement. -/
def bitwise_not8 (v : Nat) : Nat := Nat.xor v 255

/-- Line 104, `inv_mask = cv2.bitwise_not(cloak_mask)`. -/
def inv_mask (m : Gray) : Gray := fun y x => bitwise_not8 (m y x)

/-- The all-zero pixel. -/
def zeroPix : Pix := ⟨0, 0, 0⟩

/-- `cv2.bitwise_and(img, img, mask=m)`: where the mask is nonzero the
output pixel is `img AND img` channel-wise, elsewhere the zero pixel. -/
def bitwise_and_self (img : Img) (m : Gray) : Img := fun y x =>
  if m y x ≠ 0 then
    ⟨Nat.land (img y x).c0 (img y x).c0, Nat.land (img y x).c1 (img y x).c1,
      Nat.land (img y x).c2 (img y x).c2⟩
  else zeroPix

/-- Line 107, `background_part = cv2.bitwise_and(bg, bg, mask=cloak_mask)`. -/
def background_part (bg : Img) (cloak : Gray) : Img := bitwise_and_self bg cloak

/-- Line 108, `current_part = cv2.bitwise_and(frame, frame, mask=inv_mask)`. -/
def current_part (frame : Img) (cloak : Gray) : Img :=
  bitwise_and_self frame (inv_mask cloak)

/-- `cv2.add` on one uint8 channel: saturating addition clamped at 255. -/
def cvAdd8 (a b : Nat) : Nat := min (a + b) 255

/-- `cv2.add` on whole pixels. -/
def addPix (p q : Pix) : Pix := ⟨cvAdd8 p.c0 q.c0, cvAdd8 p.c1 q.c1, cvAdd8 p.c2 q.c2⟩

/-- Line 110, `final = cv2.add(background_part, current_part)`. -/
def finalComposite (bg frame : Img) (cloak : Gray) : Img := fun y x =>
  addPix (background_part bg cloak y x) (current_part frame cloak y x)

/-! ## Background acquisition: background.py -/

/-- One channel of `np.median(..., axis=0).astype(np.uint8)`: sort the
samples; an odd count takes the middle element of the sorted list, an even
count takes the mean of the two middle elements, and the uint8 cast
truncates a possible half downwards. -/
def npMedian8 (l : List Nat) : Nat :=
  let s := List.insertionSort (· ≤ ·) l
  if l.length % 2 = 1 then s.getD (l.length / 2) 0
  else (s.getD (l.length / 2 - 1) 0 + s.getD (l.length / 2) 0) / 2

/-- Line 71 of background.py: the per-pixel, per-channel median frame over
the captured frames. -/
def medianFrame (fs : List Img) : Img := fun y x =>
  ⟨npMedian8 (fs.map fun f => (f y x).c0),
   npMedian8 (fs.map fun f => (f y x).c1),
   npMedian8 (fs.map fun f => (f y x).c2)⟩

/-- `cv2.flip(f, 1)`: horizontal mirror within width `d.w`. -/
def hflip (d : Dims) (f : Img) : Img := fun y x => f y ((d.w : Int) - 1 - x)

/-- The capture loop of background.py lines 59-65: one read attempt per
requested sample; a failed read (`ok2` false) is skipped, a successful
frame is mirrored and collected. -/
def collectFrames (d : Dims) (reads : List (Option Img)) : List Img :=
  reads.filterMap fun r => r.map (hflip d)

/-- Lines 67-72 of background.py: when no frame was captured the
acquisition fails and nothing is produced or written; otherwise the
per-pixel median frame is assembled (and written out). -/
def acquireBackground (d : Dims) (reads : List (Option Img)) : Option Img :=
  let frames := collectFrames d reads
  if frames.isEmpty then none else some (medianFrame frames)

/-- Spec-side comparator for refinement, following the spec words of
section 4.3 ("compute the median value across all successfully captured
frames"): the statistical median of the sample list as an exact rational —
the middle element of the sorted samples for an odd count, the mean of the
two middle elements for an even count. -/
def medianSpecQ (l : List Nat) : ℚ :=
  let s := List.insertionSort (· ≤ ·) l
  if l.length % 2 = 1 then (s.getD (l.length / 2) 0 : ℚ)
  else ((s.getD (l.length / 2 - 1) 0 : ℚ) + (s.getD (l.length / 2) 0 : ℚ)) / 2

/-! ## Background resize bookkeeping: lines 99-100 of invisible_cloak.py -/

/-- The background image held by the display loop, with its dimensions. -/
structure BgState where
  dims : Dims
  img : Img

/-- Lines 99-100, one loop iteration: when the stored background dimensions
differ from the live frame dimensions, the background is replaced by its
resize to the frame dimensions (`cv2.resize(bg, (w, h), INTER_AREA)`; the
numeric content of the interpolation is abstracted as the `resize`
argument, about which nothing is assumed).  The live frame is never
resized.  The Boolean records whether a resize event occurred. -/
def bgStep (resize : Dims → Img → Img) (fd : Dims) (s : BgState) : BgState × Bool :=
  if s.dims ≠ fd then (⟨fd, resize fd s.img⟩, true) else (s, false)

/-- One fold step of the display loop: update the background state and
accumulate the count of resize events. -/
def bgFold (resize : Dims → Img → Img) (acc : BgState × Nat) (fd : Dims) :
    BgState × Nat :=
  ((bgStep resize fd acc.1).1, acc.2 + (if (bgStep resize fd acc.1).2 then 1 else 0))

/-- Folding `bgStep` over the successive live-frame dimensions of a
session, counting resize events. -/
def bgRun (resize : Dims → Img → Img) (fds : List Dims) (s0 : BgState) : BgState × Nat :=
  fds.foldl (bgFold resize) (s0, 0)

/-! ## Generic facts about the fold-based neighbourhood minima and maxima -/

theorem foldr_min_le_init (l : List Nat) (c : Nat) : l.foldr min c ≤ c := by
  induction l with
  | nil => exact Nat.le_refl c
  | cons a t ih => exact Nat.le_trans (Nat.min_le_right a _) ih

theorem foldr_min_le_of_mem {l : List Nat} {v : Nat} (h : v ∈ l) (c : Nat) :
    l.foldr min c ≤ v := by
  induction l with
  | nil => cases h
  | cons a t ih =>
    rcases List.mem_cons.mp h with rfl | h
    · exact Nat.min_le_left _ _
    · exact Nat.le_trans (Nat.min_le_right _ _) (ih h)

theorem foldr_min_eq_top_iff {l : List Nat} :
    l.foldr min 255 = 255 ↔ ∀ v ∈ l, 255 ≤ v := by
  constructor
  · intro h v hv
    have := foldr_min_le_of_mem hv 255
    omega
  · intro h
    induction l with
    | nil => rfl
    | cons a t ih =>
      have ha : 255 ≤ a := h a (List.mem_cons_self a t)
      have ht : t.foldr min 255 = 255 := ih fun v hv => h v (List.mem_cons_of_mem a hv)
      simp only [List.foldr_cons, ht]
      omega

theorem foldr_max_le {l : List Nat} (h : ∀ v ∈ l, v ≤ 255) : l.foldr max 0 ≤ 255 := by
  induction l with
  | nil => exact Nat.zero_le _
  | cons a t ih =>
    have ha := h a (List.mem_cons_self a t)
    have ht := ih fun v hv => h v (List.mem_cons_of_mem a hv)
    simp only [List.foldr_cons]
    omega

theorem le_foldr_max_of_mem {l : List Nat} {v : Nat} (h : v ∈ l) :
    v ≤ l.foldr max 0 := by
  induction l with
  | nil => cases h
  | cons a t ih =>
    rcases List.mem_cons.mp h with rfl | h
    · exact Nat.le_max_left _ _
    · exact Nat.le_trans (ih h) (Nat.le_max_right _ _)

theorem foldr_max_eq_zero {l : List Nat} (h : ∀ v ∈ l, v = 0) :
    l.foldr max 0 = 0 := by
  induction l with
  | nil => rfl
  | cons a t ih =>
    have ha := h a (List.mem_cons_self a t)
    have ht := ih fun v hv => h v (List.mem_cons_of_mem a hv)
    simp only [List.foldr_cons, ha, ht]
    omega

theorem foldr_max_eq_top_iff {l : List Nat} (hb : ∀ v ∈ l, v ≤ 255) :
    l.foldr max 0 = 255 ↔ ∃ v ∈ l, v = 255 := by
  constructor
  · intro h
    induction l with
    | nil => cases h
    | cons a t ih =>
      have ha := hb a (List.mem_cons_self a t)
      have hbt : ∀ v ∈ t, v ≤ 255 := fun v hv => hb v (List.mem_cons_of_mem a hv)
      simp only [List.foldr_cons] at h
      have hle := foldr_max_le hbt
      rcases Nat.le_total a (t.foldr max 0) with hc | hc
      · rw [Nat.max_eq_right hc] at h
        rcases ih hbt h with ⟨v, hv, hv255⟩
        exact ⟨v, List.mem_cons_of_mem a hv, hv255⟩
      · rw [Nat.max_eq_left hc] at h
        exact ⟨a, List.mem_cons_self a t, h⟩
  · rintro ⟨v, hv, rfl⟩
    have h1 := le_foldr_max_of_mem hv
    have h2 := foldr_max_le hb
    omega

theorem foldr_min_binary {l : List Nat} (h : ∀ v ∈ l, v = 0 ∨ v = 255) :
    l.foldr min 255 = 0 ∨ l.foldr min 255 = 255 := by
  induction l with
  | nil => right; rfl
  | cons a t ih =>
    rcases h a (List.mem_cons_self a t) with ha | ha <;>
      rcases ih (fun v hv => h v (List.mem_cons_of_mem a hv)) with ht | ht <;>
        simp only [List.foldr_cons, ha, ht] <;> omega

theorem foldr_max_binary {l : List Nat} (h : ∀ v ∈ l, v = 0 ∨ v = 255) :
    l.foldr max 0 = 0 ∨ l.foldr max 0 = 255 := by
  induction l with
  | nil => left; rfl
  | cons a t ih =>
    rcases h a (List.mem_cons_self a t) with ha | ha <;>
      rcases ih (fun v hv => h v (List.mem_cons_of_mem a hv)) with ht | ht <;>
        simp only [List.foldr_cons, ha, ht] <;> omega

/-! ## Pointwise characterisation of erosion and dilation -/

/-- Every offset of the 3x3 kernel moves by at most one pixel in each
direction. -/
theorem offsets_bound : ∀ o ∈ offsets, -1 ≤ o.1 ∧ o.1 ≤ 1 ∧ -1 ≤ o.2 ∧ o.2 ≤ 1 := by
  decide

/-- A mask is binary when every value is 0 or 255. -/
def binaryG (m : Gray) : Prop := ∀ y x : Int, m y x = 0 ∨ m y x = 255

theorem erode_le_top (d : Dims) (m : Gray) (y x : Int) : erode d m y x ≤ 255 :=
  foldr_min_le_init _ _

theorem erode_le_at {d : Dims} {m : Gray} {y x : Int} {o : Int × Int}
    (ho : o ∈ offsets) (hob : inBounds d (y + o.1) (x + o.2)) :
    erode d m y x ≤ m (y + o.1) (x + o.2) := by
  have hmem : (if inBounds d (y + o.1) (x + o.2) then m (y + o.1) (x + o.2) else 255)
      ∈ offsets.map (fun o : Int × Int =>
        if inBounds d (y + o.1) (x + o.2) then m (y + o.1) (x + o.2) else 255) :=
    List.mem_map_of_mem _ ho
  rw [if_pos hob] at hmem
  exact foldr_min_le_of_mem hmem 255

theorem erode_eq_top_iff (d : Dims) (m : Gray) (y x : Int)
    (hm : ∀ a b : Int, inBounds d a b → m a b ≤ 255) :
    erode d m y x = 255 ↔
      ∀ o ∈ offsets, inBounds d (y + o.1) (x + o.2) → m (y + o.1) (x + o.2) = 255 := by
  unfold erode
  rw [foldr_min_eq_top_iff]
  constructor
  · intro h o ho hb
    have h1 := h _ (List.mem_map_of_mem _ ho)
    rw [if_pos hb] at h1
    have h2 := hm _ _ hb
    omega
  · intro h v hv
    rcases List.mem_map.mp hv with ⟨o, ho, rfl⟩
    by_cases hb : inBounds d (y + o.1) (x + o.2)
    · rw [if_pos hb, h o ho hb]
    · rw [if_neg hb]

theorem dilate_le_top (d : Dims) (m : Gray) (y x : Int)
    (hm : ∀ a b : Int, inBounds d a b → m a b ≤ 255) :
    dilate d m y x ≤ 255 := by
  apply foldr_max_le
  intro v hv
  rcases List.mem_map.mp hv with ⟨o, ho, rfl⟩
  by_cases hb : inBounds d (y + o.1) (x + o.2)
  · rw [if_pos hb]; exact hm _ _ hb
  · rw [if_neg hb]; omega

theorem dilate_eq_top_iff (d : Dims) (m : Gray) (y x : Int)
    (hm : ∀ a b : Int, inBounds d a b → m a b ≤ 255) :
    dilate d m y x = 255 ↔
      ∃ o ∈ offsets, inBounds d (y + o.1) (x + o.2) ∧ m (y + o.1) (x + o.2) = 255 := by
  unfold dilate
  rw [foldr_max_eq_top_iff]
  · constructor
    · rintro ⟨v, hv, rfl⟩
      rcases List.mem_map.mp hv with ⟨o, ho, hval⟩
      by_cases hb : inBounds d (y + o.1) (x + o.2)
      · rw [if_pos hb] at hval
        exact ⟨o, ho, hb, hval⟩
      · rw [if_neg hb] at hval
        omega
    · rintro ⟨o, ho, hb, hval⟩
      refine ⟨_, List.mem_map_of_mem _ ho, ?_⟩
      rw [if_pos hb, hval]
  · intro v hv
    rcases List.mem_map.mp hv with ⟨o, ho, rfl⟩
    by_cases hb : inBounds d (y + o.1) (x + o.2)
    · rw [if_pos hb]; exact hm _ _ hb
    · rw [if_neg hb]; omega

theorem dilate_eq_zero (d : Dims) (m : Gray) (y x : Int)
    (h : ∀ o ∈ offsets, inBounds d (y + o.1) (x + o.2) → m (y + o.1) (x + o.2) = 0) :
    dilate d m y x = 0 := by
  apply foldr_max_eq_zero
  intro v hv
  rcases List.mem_map.mp hv with ⟨o, ho, rfl⟩
  by_cases hb : inBounds d (y + o.1) (x + o.2)
  · rw [if_pos hb]; exact h o ho hb
  · rw [if_neg hb]

theorem erode_binary (d : Dims) {m : Gray} (hm : binaryG m) : binaryG (erode d m) := by
  intro y x
  apply foldr_min_binary
  intro v hv
  rcases List.mem_map.mp hv with ⟨o, ho, rfl⟩
  by_cases hb : inBounds d (y + o.1) (x + o.2)
  · rw [if_pos hb]; exact hm _ _
  · rw [if_neg hb]; right; rfl

theorem dilate_binary (d : Dims) {m : Gray} (hm : binaryG m) : binaryG (dilate d m) := by
  intro y x
  apply foldr_max_binary
  intro v hv
  rcases List.mem_map.mp hv with ⟨o, ho, rfl⟩
  by_cases hb : inBounds d (y + o.1) (x + o.2)
  · rw [if_pos hb]; exact hm _ _
  · rw [if_neg hb]; left; rfl

/-! ## Rectangles under erosion and dilation -/

/-- The coordinate (y, x) lies in the closed rectangle with rows y0..y1 and
columns x0..x1. -/
def Rect (y0 y1 x0 x1 y x : Int) : Prop := y0 ≤ y ∧ y ≤ y1 ∧ x0 ≤ x ∧ x ≤ x1

instance (y0 y1 x0 x1 y x : Int) : Decidable (Rect y0 y1 x0 x1 y x) := by
  unfold Rect; infer_instance

/-- Inside the image bounds, the mask m is exactly the 0/255 indicator of
the predicate P. -/
def agreesOn (d : Dims) (m : Gray) (P : Int → Int → Prop) : Prop :=
  ∀ y x : Int, inBounds d y x → (P y x ∧ m y x = 255) ∨ (¬P y x ∧ m y x = 0)

theorem agreesOn_le_top {d : Dims} {m : Gray} {P : Int → Int → Prop}
    (h : agreesOn d m P) : ∀ y x : Int, inBounds d y x → m y x ≤ 255 := by
  intro y x hb
  rcases h y x hb with ⟨-, hv⟩ | ⟨-, hv⟩ <;> omega

/-- Eroding the indicator of a rectangle that sits strictly inside the
image shrinks the rectangle by one pixel on each side. -/
theorem erode_rect {d : Dims} {m : Gray} {y0 y1 x0 x1 : Int}
    (hy0 : 1 ≤ y0) (hy1 : y1 ≤ (d.h : Int) - 2)
    (hx0 : 1 ≤ x0) (hx1 : x1 ≤ (d.w : Int) - 2)
    (h : agreesOn d m (Rect y0 y1 x0 x1)) :
    agreesOn d (erode d m) (Rect (y0 + 1) (y1 - 1) (x0 + 1) (x1 - 1)) := by
  intro y x hb
  by_cases hr : Rect (y0 + 1) (y1 - 1) (x0 + 1) (x1 - 1) y x
  · left
    refine ⟨hr, ?_⟩
    rw [erode_eq_top_iff d m y x (agreesOn_le_top h)]
    intro o ho hob
    rcases h _ _ hob with ⟨-, hv⟩ | ⟨hnp, -⟩
    · exact hv
    · exfalso
      apply hnp
      have hoo := offsets_bound o ho
      unfold Rect at hr ⊢
      omega
  · right
    refine ⟨hr, ?_⟩
    unfold Rect at hr
    unfold inBounds at hb
    by_cases hR : Rect y0 y1 x0 x1 y x
    · unfold Rect at hR
      -- on the one-pixel boundary ring of the rectangle: some neighbour of
      -- (y, x) is inside the image but outside the rectangle
      have hcase : y = y0 ∨ y = y1 ∨ x = x0 ∨ x = x1 := by omega
      have hzero : ∃ o ∈ offsets,
          inBounds d (y + o.1) (x + o.2) ∧ ¬Rect y0 y1 x0 x1 (y + o.1) (x + o.2) := by
        rcases hcase with hc | hc | hc | hc
        · refine ⟨(-1, 0), by decide, ?_, ?_⟩
          · unfold inBounds; omega
          · unfold Rect; omega
        · refine ⟨(1, 0), by decide, ?_, ?_⟩
          · unfold inBounds; omega
          · unfold Rect; omega
        · refine ⟨(0, -1), by decide, ?_, ?_⟩
          · unfold inBounds; omega
          · unfold Rect; omega
        · refine ⟨(0, 1), by decide, ?_, ?_⟩
          · unfold inBounds; omega
          · unfold Rect; omega
      rcases hzero with ⟨o, ho, hob, hnR⟩
      have hmz : m (y + o.1) (x + o.2) = 0 := by
        rcases h _ _ hob with ⟨hp, -⟩ | ⟨-, hv⟩
        · exact absurd hp hnR
        · exact hv
      have hle := erode_le_at (d := d) (m := m) ho hob
      omega
    · -- (y, x) is itself outside the rectangle: the central sample is zero
      unfold Rect at hR
      have hob : inBounds d (y + (0 : Int)) (x + (0 : Int)) := by
        unfold inBounds; omega
      have hmz : m (y + (0 : Int)) (x + (0 : Int)) = 0 := by
        rcases h _ _ hob with ⟨hp, -⟩ | ⟨-, hv⟩
        · exfalso; unfold Rect at hp; omega
        · exact hv
      have hle : erode d m y x ≤ m (y + (0 : Int)) (x + (0 : Int)) :=
        erode_le_at (d := d) (m := m) (o := ((0 : Int), (0 : Int))) (by decide) hob
      omega

/-- Dilating the indicator of a nonempty rectangle that sits strictly
inside the image grows the rectangle by one pixel on each side. -/
theorem dilate_rect {d : Dims} {m : Gray} {y0 y1 x0 x1 : Int}
    (hney : y0 ≤ y1) (hnex : x0 ≤ x1)
    (hy0 : 1 ≤ y0) (hy1 : y1 ≤ (d.h : Int) - 2)
    (hx0 : 1 ≤ x0) (hx1 : x1 ≤ (d.w : Int) - 2)
    (h : agreesOn d m (Rect y0 y1 x0 x1)) :
    agreesOn d (dilate d m) (Rect (y0 - 1) (y1 + 1) (x0 - 1) (x1 + 1)) := by
  intro y x hb
  unfold inBounds at hb
  by_cases hr : Rect (y0 - 1) (y1 + 1) (x0 - 1) (x1 + 1) y x
  · left
    refine ⟨hr, ?_⟩
    rw [dilate_eq_top_iff d m y x (agreesOn_le_top h)]
    unfold Rect at hr
    obtain ⟨oy, hoy⟩ : ∃ oy : Int,
        (oy = -1 ∨ oy = 0 ∨ oy = 1) ∧ y0 ≤ y + oy ∧ y + oy ≤ y1 := by
      rcases lt_or_le y y0 with h1 | h1
      · exact ⟨1, by omega⟩
      · rcases le_or_lt y y1 with h2 | h2
        · exact ⟨0, by omega⟩
        · exact ⟨-1, by omega⟩
    obtain ⟨ox, hox⟩ : ∃ ox : Int,
        (ox = -1 ∨ ox = 0 ∨ ox = 1) ∧ x0 ≤ x + ox ∧ x + ox ≤ x1 := by
      rcases lt_or_le x x0 with h1 | h1
      · exact ⟨1, by omega⟩
      · rcases le_or_lt x x1 with h2 | h2
        · exact ⟨0, by omega⟩
        · exact ⟨-1, by omega⟩
    refine ⟨(oy, ox), ?_, ?_, ?_⟩
    · rcases hoy.1 with rfl | rfl | rfl <;> rcases hox.1 with rfl | rfl | rfl <;> decide
    · unfold inBounds
      have := hoy.2
      have := hox.2
      omega
    · have hob : inBounds d (y + oy) (x + ox) := by
        unfold inBounds
        have := hoy.2
        have := hox.2
        omega
      rcases h _ _ hob with ⟨-, hv⟩ | ⟨hnp, -⟩
      · exact hv
      · exfalso
        apply hnp
        unfold Rect
        exact ⟨hoy.2.1, hoy.2.2, hox.2.1, hox.2.2⟩
  · right
    refine ⟨hr, ?_⟩
    apply dilate_eq_zero
    intro o ho hob
    rcases h _ _ hob with ⟨hp, -⟩ | ⟨-, hv⟩
    · exfalso
      apply hr
      have hoo := offsets_bound o ho
      unfold Rect at hp ⊢
      omega
    · exact hv

/-! ## The raw red mask as an indicator -/

theorem rawRedMask_eq (hsv : Img) (y x : Int) :
    rawRedMask hsv y x = if matchesAny (hsv y x) then 255 else 0 := by
  unfold rawRedMask inRange inRangePix matchesAny
  by_cases h1 : matchesRange lower_red1 upper_red1 (hsv y x) <;>
    by_cases h2 : matchesRange lower_red2 upper_red2 (hsv y x) <;>
      by_cases h3 : matchesRange lower_orange upper_orange (hsv y x) <;>
        simp [h1, h2, h3] <;> decide

theorem rawRedMask_binary (hsv : Img) : binaryG (rawRedMask hsv) := by
  intro y x
  rw [rawRedMask_eq]
  by_cases h : matchesAny (hsv y x) <;> simp [h]

/-! ## Pointwise compositing facts -/

theorem land_self_eq (n : Nat) : Nat.land n n = n := by
  show n &&& n = n
  simp

instance (p : Pix) : Decidable (pix8 p) := by
  unfold pix8; infer_instance

theorem bitwise_and_self_on {img : Img} {m : Gray} {y x : Int} (h : m y x ≠ 0) :
    bitwise_and_self img m y x = img y x := by
  unfold bitwise_and_self
  rw [if_pos h, land_self_eq, land_self_eq, land_self_eq]

theorem bitwise_and_self_off {img : Img} {m : Gray} {y x : Int} (h : m y x = 0) :
    bitwise_and_self img m y x = zeroPix := by
  unfold bitwise_and_self
  simp [h]

theorem addPix_exact {p q : Pix} (h0 : p.c0 + q.c0 ≤ 255) (h1 : p.c1 + q.c1 ≤ 255)
    (h2 : p.c2 + q.c2 ≤ 255) :
    addPix p q = ⟨p.c0 + q.c0, p.c1 + q.c1, p.c2 + q.c2⟩ := by
  unfold addPix cvAdd8
  congr 1 <;> omega

theorem pix_eq {p q : Pix} (h0 : p.c0 = q.c0) (h1 : p.c1 = q.c1) (h2 : p.c2 = q.c2) :
    p = q := by
  cases p
  cases q
  congr 1

theorem addPix_zero_left {q : Pix} (h : pix8 q) : addPix zeroPix q = q := by
  rcases h with ⟨h0, h1, h2⟩
  apply pix_eq <;> simp [addPix, cvAdd8, zeroPix] <;> omega

theorem addPix_zero_right {p : Pix} (h : pix8 p) : addPix p zeroPix = p := by
  rcases h with ⟨h0, h1, h2⟩
  apply pix_eq <;> simp [addPix, cvAdd8, zeroPix] <;> omega

theorem inv_mask_of_zero {m : Gray} {y x : Int} (h : m y x = 0) :
    inv_mask m y x = 255 := by
  unfold inv_mask bitwise_not8
  rw [h]
  decide

theorem inv_mask_of_top {m : Gray} {y x : Int} (h : m y x = 255) :
    inv_mask m y x = 0 := by
  unfold inv_mask bitwise_not8
  rw [h]
  decide

/-! ## Claim theorems: compositing and segmentation -/

/-- C1: for every frame, binary mask (as the segmentation produces) and
background, the composite `final = cv2.add(bitwise_and(bg, bg, cloak),
bitwise_and(frame, frame, NOT cloak))` equals the background pixel wherever
the mask is set (255), equals the live-frame pixel wherever it is unset
(0), and every output pixel is one of the two input pixels verbatim — no
blending. -/
theorem composite_hard_selection (bg frame : Img) (m : Gray)
    (hm : ∀ y x : Int, m y x = 0 ∨ m y x = 255)
    (hbg : img8 bg) (hf : img8 frame) (y x : Int) :
    (m y x = 255 → finalComposite bg frame m y x = bg y x) ∧
    (m y x = 0 → finalComposite bg frame m y x = frame y x) ∧
    (finalComposite bg frame m y x = bg y x ∨
      finalComposite bg frame m y x = frame y x) := by
  rcases hm y x with h | h
  · have hbp : background_part bg m y x = zeroPix := bitwise_and_self_off h
    have hinv : inv_mask m y x ≠ 0 := by rw [inv_mask_of_zero h]; decide
    have hcp : current_part frame m y x = frame y x := bitwise_and_self_on hinv
    have hfin : finalComposite bg frame m y x = frame y x := by
      unfold finalComposite
      rw [hbp, hcp]
      exact addPix_zero_left (hf y x)
    refine ⟨fun hc => by omega, fun _ => hfin, Or.inr hfin⟩
  · have hinv : inv_mask m y x = 0 := inv_mask_of_top h
    have hmz : m y x ≠ 0 := by omega
    have hbp : background_part bg m y x = bg y x := bitwise_and_self_on hmz
    have hcp : current_part frame m y x = zeroPix := bitwise_and_self_off hinv
    have hfin : finalComposite bg frame m y x = bg y x := by
      unfold finalComposite
      rw [hbp, hcp]
      exact addPix_zero_right (hbg y x)
    refine ⟨fun _ => hfin, fun hc => by omega, Or.inl hfin⟩

/-- Witness for C1 at a concrete point: a set mask pixel selects the
background pixel. -/
def bgW : Img := fun _ _ => ⟨1, 2, 3⟩

/-- Constant witness frame. -/
def frameW : Img := fun _ _ => ⟨4, 5, 6⟩

/-- Witness mask: row 0 set, all other rows unset. -/
def maskW : Gray := fun y _ => if y = 0 then 255 else 0

theorem composite_hard_selection_witness :
    maskW 0 0 = 255 ∧ finalComposite bgW frameW maskW 0 0 = bgW 0 0 :=
  ⟨rfl,
    (composite_hard_selection bgW frameW maskW
      (fun y x => by by_cases h : y = 0 <;> simp [maskW, h])
      (fun _ _ => by simp [bgW, pix8]) (fun _ _ => by simp [frameW, pix8]) 0 0).1 rfl⟩

/-- C4: for every frame, binary mask and background, the two compositing
contributions are pixel-disjoint (at every position at least one of them is
the zero pixel), their channel-wise sums never exceed 255, and the
saturating `cv2.add` therefore acts as the exact (non-saturating) sum. -/
theorem composite_parts_disjoint (bg frame : Img) (m : Gray)
    (hm : ∀ y x : Int, m y x = 0 ∨ m y x = 255)
    (hbg : img8 bg) (hf : img8 frame) (y x : Int) :
    (background_part bg m y x = zeroPix ∨ current_part frame m y x = zeroPix) ∧
    (background_part bg m y x).c0 + (current_part frame m y x).c0 ≤ 255 ∧
    (background_part bg m y x).c1 + (current_part frame m y x).c1 ≤ 255 ∧
    (background_part bg m y x).c2 + (current_part frame m y x).c2 ≤ 255 ∧
    finalComposite bg frame m y x =
      ⟨(background_part bg m y x).c0 + (current_part frame m y x).c0,
       (background_part bg m y x).c1 + (current_part frame m y x).c1,
       (background_part bg m y x).c2 + (current_part frame m y x).c2⟩ := by
  rcases hm y x with h | h
  · have hbp : background_part bg m y x = zeroPix := bitwise_and_self_off h
    have hinv : inv_mask m y x ≠ 0 := by rw [inv_mask_of_zero h]; decide
    have hcp : current_part frame m y x = frame y x := bitwise_and_self_on hinv
    rcases hf y x with ⟨h0, h1, h2⟩
    rw [hbp, hcp]
    refine ⟨Or.inl rfl, ?_, ?_, ?_, ?_⟩
    · simp [zeroPix]; omega
    · simp [zeroPix]; omega
    · simp [zeroPix]; omega
    · unfold finalComposite
      rw [hbp, hcp]
      apply addPix_exact <;> simp [zeroPix] <;> omega
  · have hinv : inv_mask m y x = 0 := inv_mask_of_top h
    have hmz : m y x ≠ 0 := by omega
    have hbp : background_part bg m y x = bg y x := bitwise_and_self_on hmz
    have hcp : current_part frame m y x = zeroPix := bitwise_and_self_off hinv
    rcases hbg y x with ⟨h0, h1, h2⟩
    rw [hbp, hcp]
    refine ⟨Or.inr rfl, ?_, ?_, ?_, ?_⟩
    · simp [zeroPix]; omega
    · simp [zeroPix]; omega
    · simp [zeroPix]; omega
    · unfold finalComposite
      rw [hbp, hcp]
      apply addPix_exact <;> simp [zeroPix] <;> omega

theorem composite_parts_disjoint_witness :
    maskW 0 0 = 255 ∧
    (background_part bgW maskW 0 0 = zeroPix ∨
      current_part frameW maskW 0 0 = zeroPix) :=
  ⟨rfl,
    (composite_parts_disjoint bgW frameW maskW
      (fun y x => by by_cases h : y = 0 <;> simp [maskW, h])
      (fun _ _ => by simp [bgW, pix8]) (fun _ _ => by simp [frameW, pix8]) 0 0).1⟩

/-- C3: a pixel is marked (255) in the raw mask produced by lines 46-51 of
`build_red_mask` precisely when its hue/saturation/value channels all lie,
with inclusive bounds, in at least one of the three configured intervals —
pure red 0-10 and 170-180, reddish-orange 10-25 — and the raw mask is the
per-pixel bitwise OR of the three per-interval `cv2.inRange` masks, every
unmarked pixel being exactly 0. -/
theorem rawRedMask_marks_iff (hsv : Img) (y x : Int) :
    (rawRedMask hsv y x = 255 ↔ matchesAny (hsv y x)) ∧
    (rawRedMask hsv y x = 0 ↔ ¬matchesAny (hsv y x)) := by
  rw [rawRedMask_eq]
  by_cases h : matchesAny (hsv y x) <;> simp [h]

/-- C10: every pixel of the raw interval mask and of the final mask
returned by `build_red_mask` — after the per-pixel OR, the morphological
opening and the extra dilation — is exactly 0 or exactly 255. -/
theorem build_red_mask_binary (d : Dims) (hsv : Img) (y x : Int) :
    (rawRedMask hsv y x = 0 ∨ rawRedMask hsv y x = 255) ∧
    (build_red_mask d hsv y x = 0 ∨ build_red_mask d hsv y x = 255) := by
  refine ⟨rawRedMask_binary hsv y x, ?_⟩
  unfold build_red_mask cleanMask
  exact dilate_binary d (dilate_binary d (dilate_binary d
    (erode_binary d (erode_binary d (rawRedMask_binary hsv))))) y x

/-! ## Claim theorems: block preservation through the mask cleaning -/

theorem dilate_zero_all {d : Dims} {m : Gray}
    (h : ∀ a b : Int, inBounds d a b → m a b = 0) :
    ∀ y x : Int, dilate d m y x = 0 := by
  intro y x
  apply dilate_eq_zero
  intro o ho hob
  exact h _ _ hob

/-- C5 (amended): for every frame containing a solid axis-aligned block of
cloak-coloured pixels whose height and width are both at least 5, strictly
inside the image and surrounded by non-matching pixels, the mask produced
by `build_red_mask` (interval masks, opening with the 3x3 neighbourhood for
2 iterations, then one dilation) is 255 on the whole block — in particular
on its interior.  The two erosions of the opening shrink the block by two
pixels per side, the three dilations grow it back by three, so a block at
least 5 wide in each dimension is fully recovered. -/
theorem block_survives (d : Dims) (hsv : Img) (y0 y1 x0 x1 : Int)
    (hy0 : 1 ≤ y0) (hy1 : y1 ≤ (d.h : Int) - 2)
    (hx0 : 1 ≤ x0) (hx1 : x1 ≤ (d.w : Int) - 2)
    (hh : y0 + 4 ≤ y1) (hw : x0 + 4 ≤ x1)
    (hin : ∀ y x : Int, Rect y0 y1 x0 x1 y x → matchesAny (hsv y x))
    (hout : ∀ y x : Int, inBounds d y x → ¬Rect y0 y1 x0 x1 y x →
      ¬matchesAny (hsv y x)) :
    ∀ y x : Int, Rect y0 y1 x0 x1 y x → build_red_mask d hsv y x = 255 := by
  have hraw : agreesOn d (rawRedMask hsv) (Rect y0 y1 x0 x1) := by
    intro y x hb
    rw [rawRedMask_eq]
    by_cases hr : Rect y0 y1 x0 x1 y x
    · exact Or.inl ⟨hr, by rw [if_pos (hin y x hr)]⟩
    · exact Or.inr ⟨hr, by rw [if_neg (hout y x hb hr)]⟩
  have he1 := erode_rect hy0 hy1 hx0 hx1 hraw
  have he2 := erode_rect (by omega) (by omega) (by omega) (by omega) he1
  have hd1 := dilate_rect (by omega) (by omega) (by omega) (by omega) (by omega)
    (by omega) he2
  have hd2 := dilate_rect (by omega) (by omega) (by omega) (by omega) (by omega)
    (by omega) hd1
  intro y x hr
  have hb : inBounds d (y + (0 : Int)) (x + (0 : Int)) := by
    unfold Rect at hr
    unfold inBounds
    omega
  unfold build_red_mask cleanMask
  rw [dilate_eq_top_iff _ _ y x (agreesOn_le_top hd2)]
  refine ⟨((0 : Int), (0 : Int)), by decide, hb, ?_⟩
  rcases hd2 _ _ hb with ⟨-, hv⟩ | ⟨hnp, -⟩
  · exact hv
  · exfalso
    apply hnp
    unfold Rect at hr ⊢
    omega

/-- Synthetic frame for the C5 witness: a 5x5 cloak-coloured block at rows
and columns 1..5 of a 9x9 image, everything else non-matching. -/
def hsvW5 : Img := fun y x =>
  if Rect 1 5 1 5 y x then ⟨15, 150, 150⟩ else ⟨50, 0, 0⟩

theorem block_survives_witness : build_red_mask ⟨9, 9⟩ hsvW5 3 3 = 255 :=
  block_survives ⟨9, 9⟩ hsvW5 1 5 1 5 (by decide) (by decide) (by decide) (by decide)
    (by decide) (by decide)
    (fun y x hr => by unfold hsvW5; rw [if_pos hr]; decide)
    (fun y x _ hnr => by unfold hsvW5; rw [if_neg hnr]; decide)
    3 3 (by decide)

/-- Synthetic frame refuting C5 as stated: a 3x3 cloak-coloured block at
rows and columns 2..4 of a 7x7 image, everything else non-matching. -/
def hsvCE : Img := fun y x =>
  if Rect 2 4 2 4 y x then ⟨15, 150, 150⟩ else ⟨50, 0, 0⟩

/-- Counterexample to C5 as stated: the centre (3, 3) of the 3x3 block is a
cloak-coloured pixel of the block interior, yet the final mask is 0 there —
the two erosions of the opening pass annihilate the whole block, so the
mask is not true over the block interior. -/
theorem small_block_erased :
    matchesAny (hsvCE 3 3) ∧ Rect 2 4 2 4 3 3 ∧
      build_red_mask ⟨7, 7⟩ hsvCE 3 3 = 0 := by
  refine ⟨by decide, by decide, ?_⟩
  have hraw : agreesOn ⟨7, 7⟩ (rawRedMask hsvCE) (Rect 2 4 2 4) := by
    intro y x hb
    rw [rawRedMask_eq]
    by_cases hr : Rect 2 4 2 4 y x
    · have hv : hsvCE y x = ⟨15, 150, 150⟩ := by unfold hsvCE; rw [if_pos hr]
      exact Or.inl ⟨hr, by rw [if_pos (show matchesAny (hsvCE y x) by rw [hv]; decide)]⟩
    · have hv : hsvCE y x = ⟨50, 0, 0⟩ := by unfold hsvCE; rw [if_neg hr]
      exact Or.inr ⟨hr, by rw [if_neg (show ¬matchesAny (hsvCE y x) by rw [hv]; decide)]⟩
  have he1 := erode_rect (d := ⟨7, 7⟩) (by decide) (by decide) (by decide) (by decide) hraw
  have he2 := erode_rect (d := ⟨7, 7⟩) (by decide) (by decide) (by decide) (by decide) he1
  have hz : ∀ a b : Int, inBounds ⟨7, 7⟩ a b →
      erode ⟨7, 7⟩ (erode ⟨7, 7⟩ (rawRedMask hsvCE)) a b = 0 := by
    intro a b hb
    rcases he2 a b hb with ⟨hp, -⟩ | ⟨-, hv⟩
    · exfalso
      unfold Rect at hp
      omega
    · exact hv
  have hz1 := dilate_zero_all hz
  have hz2 := dilate_zero_all
    (d := ⟨7, 7⟩) (m := dilate ⟨7, 7⟩ (erode ⟨7, 7⟩ (erode ⟨7, 7⟩ (rawRedMask hsvCE))))
    fun a b _ => hz1 a b
  have hz3 := dilate_zero_all
    (d := ⟨7, 7⟩)
    (m := dilate ⟨7, 7⟩ (dilate ⟨7, 7⟩ (erode ⟨7, 7⟩ (erode ⟨7, 7⟩ (rawRedMask hsvCE)))))
    fun a b _ => hz2 a b
  unfold build_red_mask cleanMask
  exact hz3 3 3

/-! ## Median facts -/

theorem npMedian8_def (l : List Nat) :
    npMedian8 l =
      if l.length % 2 = 1 then (List.insertionSort (· ≤ ·) l).getD (l.length / 2) 0
      else ((List.insertionSort (· ≤ ·) l).getD (l.length / 2 - 1) 0 +
        (List.insertionSort (· ≤ ·) l).getD (l.length / 2) 0) / 2 := rfl

theorem medianSpecQ_def (l : List Nat) :
    medianSpecQ l =
      if l.length % 2 = 1 then ((List.insertionSort (· ≤ ·) l).getD (l.length / 2) 0 : ℚ)
      else (((List.insertionSort (· ≤ ·) l).getD (l.length / 2 - 1) 0 : ℚ) +
        ((List.insertionSort (· ≤ ·) l).getD (l.length / 2) 0 : ℚ)) / 2 := rfl

/-- The uint8 output of the numpy median is the floor of the exact
statistical median. -/
theorem npMedian8_eq_floor (l : List Nat) :
    (npMedian8 l : ℤ) = ⌊medianSpecQ l⌋ := by
  rw [npMedian8_def, medianSpecQ_def]
  by_cases hpar : l.length % 2 = 1
  · rw [if_pos hpar, if_pos hpar, Int.floor_natCast]
  · rw [if_neg hpar, if_neg hpar]
    set a := (List.insertionSort (· ≤ ·) l).getD (l.length / 2 - 1) 0 with ha
    set b := (List.insertionSort (· ≤ ·) l).getD (l.length / 2) 0 with hb
    have hfl : ⌊((a : ℚ) + (b : ℚ)) / 2⌋ = ((a + b : ℕ) : ℤ) / 2 := by
      rw [show ((a : ℚ) + (b : ℚ)) / 2 = (((a + b : ℕ) : ℤ) : ℚ) / ((2 : ℕ) : ℚ) by
        push_cast; ring]
      rw [Rat.floor_intCast_div_natCast]
      norm_num
    rw [hfl]
    omega

theorem sorted_replicate_self (k v : Nat) :
    List.Sorted (· ≤ ·) (List.replicate k v) := by
  induction k with
  | zero => exact List.sorted_nil
  | succ n ih =>
    rw [List.replicate_succ, List.sorted_cons]
    refine ⟨fun b hb => ?_, ih⟩
    rw [List.eq_of_mem_replicate hb]

theorem getD_middle_cons_replicate {u v : Nat} {k i : Nat} (h1 : 1 ≤ i) (h2 : i ≤ k) :
    (u :: List.replicate k v).getD i 0 = v := by
  obtain ⟨j, rfl⟩ : ∃ j, i = j + 1 := ⟨i - 1, by omega⟩
  rw [List.getD_cons_succ, List.getD_eq_getElem?_getD, List.getElem?_replicate,
    if_pos (by omega)]
  rfl

theorem getD_append_replicate_left {u v : Nat} {k i : Nat} (h2 : i < k) :
    (List.replicate k v ++ [u]).getD i 0 = v := by
  rw [List.getD_eq_getElem?_getD,
    List.getElem?_append_left (by simpa using h2),
    List.getElem?_replicate, if_pos h2]
  rfl

/-- Median outlier rejection at the channel level: if all samples are v
except (at most) one outlier u placed anywhere in the list, and there are
at least three samples, the numpy median is the majority value v. -/
theorem npMedian8_outlier {l1 l2 : List Nat} {u v : Nat}
    (h1 : ∀ w ∈ l1, w = v) (h2 : ∀ w ∈ l2, w = v)
    (hlen : 3 ≤ (l1 ++ u :: l2).length) :
    npMedian8 (l1 ++ u :: l2) = v := by
  have hrep : l1 ++ l2 = List.replicate (l1.length + l2.length) v := by
    have hall : ∀ w ∈ l1 ++ l2, w = v := by
      intro w hw
      rcases List.mem_append.mp hw with h | h
      · exact h1 w h
      · exact h2 w h
    have h3 := List.eq_replicate_of_mem hall
    simpa using h3
  have hk : 2 ≤ l1.length + l2.length := by
    have := hlen
    simp only [List.length_append, List.length_cons] at this
    omega
  have hn : (l1 ++ u :: l2).length = l1.length + l2.length + 1 := by
    simp only [List.length_append, List.length_cons]
    omega
  have hperm : List.Perm (l1 ++ u :: l2)
      (u :: List.replicate (l1.length + l2.length) v) := by
    have hmid : List.Perm (l1 ++ u :: l2) (u :: (l1 ++ l2)) := List.perm_middle
    rwa [hrep] at hmid
  have hsort := List.sorted_insertionSort (· ≤ ·) (l1 ++ u :: l2)
  have hsperm := List.perm_insertionSort (· ≤ ·) (l1 ++ u :: l2)
  rcases Nat.le_total u v with huv | huv
  · have hcs : List.Sorted (· ≤ ·) (u :: List.replicate (l1.length + l2.length) v) := by
      rw [List.sorted_cons]
      refine ⟨fun b hb => ?_, sorted_replicate_self _ v⟩
      rw [List.eq_of_mem_replicate hb]
      exact huv
    have hseq : List.insertionSort (· ≤ ·) (l1 ++ u :: l2) =
        u :: List.replicate (l1.length + l2.length) v :=
      List.eq_of_perm_of_sorted (hsperm.trans hperm) hsort hcs
    rw [npMedian8_def, hseq, hn]
    by_cases hpar : (l1.length + l2.length + 1) % 2 = 1
    · rw [if_pos hpar]
      exact getD_middle_cons_replicate (by omega) (by omega)
    · rw [if_neg hpar]
      rw [getD_middle_cons_replicate (u := u) (by omega) (by omega),
        getD_middle_cons_replicate (u := u) (by omega) (by omega)]
      omega
  · have hcs : List.Sorted (· ≤ ·)
        (List.replicate (l1.length + l2.length) v ++ [u]) := by
      refine List.pairwise_append.mpr ⟨sorted_replicate_self _ v, List.sorted_singleton u, ?_⟩
      intro a ha b hb
      rw [List.eq_of_mem_replicate ha, List.mem_singleton.mp hb]
      exact huv
    have hseq : List.insertionSort (· ≤ ·) (l1 ++ u :: l2) =
        List.replicate (l1.length + l2.length) v ++ [u] := by
      refine List.eq_of_perm_of_sorted ?_ hsort hcs
      exact (hsperm.trans hperm).trans (List.perm_append_singleton u _).symm
    rw [npMedian8_def, hseq, hn]
    by_cases hpar : (l1.length + l2.length + 1) % 2 = 1
    · rw [if_pos hpar]
      exact getD_append_replicate_left (by omega)
    · rw [if_neg hpar]
      rw [getD_append_replicate_left (u := u) (by omega),
        getD_append_replicate_left (u := u) (by omega)]
      omega

/-! ## Claim theorems: background acquisition -/

/-- C2 (amended): at every pixel and channel the acquired background is the
exact statistical median truncated to an integer — the floor of the median,
which coincides with the median itself for odd sample counts — and for any
sample count of at least three in which all captured frames agree at a
pixel except one outlier frame, the value at that pixel is the majority
(non-outlier) value. -/
theorem medianFrame_floor_outlier (fs : List Img) (y x : Int) (hne : fs ≠ []) :
    (((medianFrame fs y x).c0 : ℤ) = ⌊medianSpecQ (fs.map fun f => (f y x).c0)⌋ ∧
     ((medianFrame fs y x).c1 : ℤ) = ⌊medianSpecQ (fs.map fun f => (f y x).c1)⌋ ∧
     ((medianFrame fs y x).c2 : ℤ) = ⌊medianSpecQ (fs.map fun f => (f y x).c2)⌋) ∧
    (∀ (l1 l2 : List Img) (g : Img) (v : Pix), fs = l1 ++ g :: l2 →
      3 ≤ fs.length → (∀ f ∈ l1, f y x = v) → (∀ f ∈ l2, f y x = v) →
      medianFrame fs y x = v) := by
  constructor
  · exact ⟨npMedian8_eq_floor _, npMedian8_eq_floor _, npMedian8_eq_floor _⟩
  · rintro l1 l2 g v rfl hlen hv1 hv2
    have hch : ∀ sel : Pix → Nat,
        npMedian8 ((l1 ++ g :: l2).map fun f => sel (f y x)) = sel v := by
      intro sel
      rw [List.map_append, List.map_cons]
      apply npMedian8_outlier
      · intro w hw
        rcases List.mem_map.mp hw with ⟨f, hf, rfl⟩
        rw [hv1 f hf]
      · intro w hw
        rcases List.mem_map.mp hw with ⟨f, hf, rfl⟩
        rw [hv2 f hf]
      · simp only [List.length_append, List.length_cons, List.length_map]
        simp only [List.length_append, List.length_cons] at hlen
        omega
    exact pix_eq (hch fun p => p.c0) (hch fun p => p.c1) (hch fun p => p.c2)

/-- Constant witness frame with channel value 1. -/
def imgA : Img := fun _ _ => ⟨1, 1, 1⟩

/-- Constant witness frame with channel value 2, the outlier. -/
def imgB : Img := fun _ _ => ⟨2, 2, 2⟩

theorem medianFrame_floor_outlier_witness :
    ([imgA, imgB, imgA] : List Img) ≠ [] ∧
      medianFrame [imgA, imgB, imgA] 0 0 = ⟨1, 1, 1⟩ :=
  ⟨by simp,
    (medianFrame_floor_outlier [imgA, imgB, imgA] 0 0 (by simp)).2
      [imgA] [imgA] imgB ⟨1, 1, 1⟩ rfl (by simp)
      (by intro f hf; rw [List.mem_singleton.mp hf]; rfl)
      (by intro f hf; rw [List.mem_singleton.mp hf]; rfl)⟩

/-- Counterexample to C2 as stated: with the two captured frames holding
channel values 1 and 2 at a pixel, the acquired background holds 1 there,
while the median of the sample list [1, 2] is 3/2 — for even sample counts
the output is the truncation of the median, not the median itself. -/
theorem median_not_exact_for_even_count :
    acquireBackground ⟨1, 1⟩ [some imgA, some imgB] =
      some (medianFrame [hflip ⟨1, 1⟩ imgA, hflip ⟨1, 1⟩ imgB]) ∧
    [((hflip ⟨1, 1⟩ imgA) 0 0).c0, ((hflip ⟨1, 1⟩ imgB) 0 0).c0] = [1, 2] ∧
    (medianFrame [hflip ⟨1, 1⟩ imgA, hflip ⟨1, 1⟩ imgB] 0 0).c0 = 1 ∧
    medianSpecQ [1, 2] = 3 / 2 ∧ ((1 : ℚ) ≠ 3 / 2) := by
  refine ⟨rfl, rfl, rfl, ?_, by norm_num⟩
  rw [medianSpecQ_def]
  norm_num [List.insertionSort, List.orderedInsert]

/-- C6: background acquisition produces no output precisely when every
read attempt failed; in particular with zero usable frames nothing is
assembled or written, and with at least one usable frame an output is
produced. -/
theorem acquireBackground_none_iff (d : Dims) (reads : List (Option Img)) :
    acquireBackground d reads = none ↔ ∀ r ∈ reads, r = none := by
  have hiff : (collectFrames d reads = []) ↔ ∀ r ∈ reads, r = none := by
    unfold collectFrames
    rw [List.filterMap_eq_nil_iff]
    constructor
    · intro h r hr
      have h2 := h r hr
      rwa [Option.map_eq_none'] at h2
    · intro h r hr
      rw [h r hr]
      rfl
  show (if (collectFrames d reads).isEmpty then none
      else some (medianFrame (collectFrames d reads))) = none ↔ _
  by_cases hemp : collectFrames d reads = []
  · rw [if_pos (by rw [List.isEmpty_iff]; exact hemp)]
    simp only [true_iff]
    exact hiff.mp hemp
  · rw [if_neg (by rw [List.isEmpty_iff]; exact hemp)]
    constructor
    · intro h
      cases h
    · intro h
      exact absurd (hiff.mpr h) hemp

theorem acquireBackground_none_iff_witness :
    acquireBackground ⟨1, 1⟩ [none, none] = none :=
  (acquireBackground_none_iff ⟨1, 1⟩ [none, none]).mpr (by simp)

/-- C7: the capture loop makes one read attempt per requested sample and
simply skips failed reads without aborting: the collected list is exactly
the successfully delivered frames (mirrored), in order; its length is the
number of successful reads, never exceeds the number of attempts, and is
strictly smaller whenever some attempt failed. -/
theorem collectFrames_skips_failures (d : Dims) (reads : List (Option Img)) :
    collectFrames d reads = (reads.filterMap id).map (hflip d) ∧
    (collectFrames d reads).length = (reads.filter fun r => r.isSome).length ∧
    (collectFrames d reads).length ≤ reads.length ∧
    (collectFrames d (none :: reads)).length < (none :: reads).length := by
  have h1 : collectFrames d reads = (reads.filterMap id).map (hflip d) := by
    unfold collectFrames
    rw [List.map_filterMap]
    rfl
  have h2 : ∀ rs : List (Option Img),
      (collectFrames d rs).length = (rs.filter fun r => r.isSome).length := by
    intro rs
    induction rs with
    | nil => rfl
    | cons r t ih =>
      cases r with
      | none => simpa [collectFrames, List.filterMap_cons, List.filter_cons] using ih
      | some f => simpa [collectFrames, List.filterMap_cons, List.filter_cons] using ih
  have h3 : (collectFrames d reads).length ≤ reads.length :=
    List.length_filterMap_le _ _
  refine ⟨h1, h2 reads, h3, ?_⟩
  have h4 : collectFrames d (none :: reads) = collectFrames d reads := rfl
  rw [h4]
  simp only [List.length_cons]
  omega

/-! ## Claim theorems: one-time background resize -/

theorem bgFold_noop (resize : Dims → Img → Img) {fd : Dims} {s : BgState}
    (hs : s.dims = fd) (c : Nat) : bgFold resize (s, c) fd = (s, c) := by
  unfold bgFold bgStep
  rw [if_neg (by simp [hs])]
  simp

theorem bgRun_stable (resize : Dims → Img → Img) (fd : Dims) (fds : List Dims)
    (hall : ∀ f ∈ fds, f = fd) (s : BgState) (hs : s.dims = fd) (c : Nat) :
    fds.foldl (bgFold resize) (s, c) = (s, c) := by
  induction fds with
  | nil => rfl
  | cons f t ih =>
    rw [List.foldl_cons, hall f (List.mem_cons_self f t), bgFold_noop resize hs]
    exact ih fun g hg => hall g (List.mem_cons_of_mem f hg)

/-- C8: over a session whose live frames all share dimensions fd, the
background — never a live frame — is resized, its replacement takes the
live-frame dimensions (the resize call receives the frame size as target),
at most one resize event occurs in the whole session (exactly one when the
initial background dimensions differ and at least one frame arrives, none
otherwise), and afterwards the background is held unchanged. -/
theorem background_resized_once (resize : Dims → Img → Img) (fd : Dims)
    (fds : List Dims) (s0 : BgState) (hall : ∀ f ∈ fds, f = fd) :
    (bgRun resize fds s0).2 ≤ 1 ∧
    (bgRun resize fds s0).2 = (if fds ≠ [] ∧ s0.dims ≠ fd then 1 else 0) ∧
    (bgRun resize fds s0).1 =
      (if fds = [] ∨ s0.dims = fd then s0 else ⟨fd, resize fd s0.img⟩) := by
  cases fds with
  | nil =>
    refine ⟨by simp [bgRun], ?_, ?_⟩
    · rw [if_neg (by simp)]
      rfl
    · rw [if_pos (Or.inl rfl)]
      rfl
  | cons f t =>
    have hf : f = fd := hall f (List.mem_cons_self f t)
    have ht : ∀ g ∈ t, g = fd := fun g hg => hall g (List.mem_cons_of_mem f hg)
    by_cases hs0 : s0.dims = fd
    · have hrun : bgRun resize (f :: t) s0 = (s0, 0) := by
        unfold bgRun
        rw [List.foldl_cons, hf, bgFold_noop resize hs0]
        exact bgRun_stable resize fd t ht s0 hs0 0
      rw [hrun]
      refine ⟨by omega, ?_, ?_⟩
      · rw [if_neg (by simp [hs0])]
      · rw [if_pos (Or.inr hs0)]
    · have hstep : bgFold resize (s0, 0) f = (⟨fd, resize fd s0.img⟩, 1) := by
        unfold bgFold bgStep
        rw [hf, if_pos (by simpa using hs0)]
        simp
      have hrun : bgRun resize (f :: t) s0 = (⟨fd, resize fd s0.img⟩, 1) := by
        unfold bgRun
        rw [List.foldl_cons, hstep]
        exact bgRun_stable resize fd t ht _ rfl 1
      rw [hrun]
      refine ⟨by omega, ?_, ?_⟩
      · rw [if_pos ⟨by simp, hs0⟩]
      · rw [if_neg (by simp [hs0])]

/-- Witness resize function: a constant image of the requested size. -/
def resizeW : Dims → Img → Img := fun _ _ _ _ => ⟨0, 0, 0⟩

/-- Witness initial background state with dimensions 3x3. -/
def bg0W : BgState := ⟨⟨3, 3⟩, fun _ _ => ⟨7, 7, 7⟩⟩

theorem background_resized_once_witness :
    (∀ f ∈ [(⟨2, 2⟩ : Dims), ⟨2, 2⟩], f = ⟨2, 2⟩) ∧
      (bgRun resizeW [⟨2, 2⟩, ⟨2, 2⟩] bg0W).2 ≤ 1 :=
  ⟨by simp,
    (background_resized_once resizeW ⟨2, 2⟩ [⟨2, 2⟩, ⟨2, 2⟩] bg0W (by simp)).1⟩

/-! ## Claim theorems: colour-range configuration -/

/-- Counterexample to C9 as stated: the HSV pixel (10, 120, 70) lies inside
both the first pure-red interval (hue 0-10) and the reddish-orange interval
(hue 10-25), because the shared hue bound 10 is inclusive on both sides —
the configured intervals are not pairwise disjoint. -/
theorem ranges_overlap_at_hue10 :
    matchesRange lower_red1 upper_red1 ⟨10, 120, 70⟩ ∧
      matchesRange lower_orange upper_orange ⟨10, 120, 70⟩ := by
  refine ⟨?_, ?_⟩ <;> decide

/-- C9 (amended): the second pure-red interval (hue 170-180) is disjoint
from each of the other two intervals, while the first pure-red interval
(hue 0-10) and the reddish-orange interval (hue 10-25) overlap exactly on
the pixels with hue 10, saturation at least 120 and value at least 70. -/
theorem ranges_disjoint_except_hue10 :
    (∀ p : Pix, ¬(matchesRange lower_red1 upper_red1 p ∧
        matchesRange lower_red2 upper_red2 p)) ∧
    (∀ p : Pix, ¬(matchesRange lower_red2 upper_red2 p ∧
        matchesRange lower_orange upper_orange p)) ∧
    (∀ p : Pix, (matchesRange lower_red1 upper_red1 p ∧
        matchesRange lower_orange upper_orange p) ↔
      (p.c0 = 10 ∧ 120 ≤ p.c1 ∧ p.c1 ≤ 255 ∧ 70 ≤ p.c2 ∧ p.c2 ≤ 255)) := by
  refine ⟨?_, ?_, ?_⟩ <;> intro p <;>
    simp only [matchesRange, lower_red1, upper_red1, lower_red2, upper_red2,
      lower_orange, upper_orange] <;> omega

theorem ranges_disjoint_except_hue10_witness :
    ¬(matchesRange lower_red1 upper_red1 ⟨5, 200, 200⟩ ∧
        matchesRange lower_red2 upper_red2 ⟨5, 200, 200⟩) :=
  ranges_disjoint_except_hue10.1 ⟨5, 200, 200⟩

theorem rawRedMask_marks_iff_witness :
    rawRedMask (fun _ _ => ⟨5, 200, 200⟩) 0 0 = 255 :=
  (rawRedMask_marks_iff (fun _ _ => ⟨5, 200, 200⟩) 0 0).1.mpr (by decide)
